import Mathlib

/-
Verification of the session host orchestration layer (clink/app/src/host/host.cpp).

The development shallowly embeds the logic of host::edit_line and its helper
functions.  External collaborators (the line editor core, the Lua engine, the
terminal) are modelled as oracles: the successive results of the blocking
editor->edit calls are an interaction script (a list of accepted-flag/buffer
pairs), and history expansion is an arbitrary function from the accepted text
to an outcome tag and the expanded text.  The observable behaviour of a session
is recorded as a trace of events (edit calls, expansion calls, history load,
append, save, pipeline teardown) together with the returned flag, the final
buffer text, the resulting history file and the final working directory.
-/

/-- Comparison scopes from core/str_compare.h as consumed by host::edit_line. -/
inductive str_compare_scope where
  | exact
  | caseless
  | relaxed
  deriving Repr, DecidableEq

/-- The switch in host::edit_line (lines 117-123) mapping the integer value of
the g_ignore_case enum setting to the comparison scope: case 1 is caseless,
case 2 is relaxed, every other value falls to the default branch, exact. -/
def cmp_mode_of (v : Int) : str_compare_scope :=
  if v = 1 then str_compare_scope.caseless
  else if v = 2 then str_compare_scope.relaxed
  else str_compare_scope.exact

/-- The option names of the g_ignore_case enum setting, declared as the string
"off,on,relaxed" (host.cpp lines 34-40); the stored integer value of the
setting is the index of the chosen name in this list. -/
def g_ignore_case_options : List String := ["off", "on", "relaxed"]

/-- Modelled from the spec: str_tokeniser (core/str_tokeniser.h, a repository
unit not present under src/) yields the fields of a delimited string in order,
skipping empty entries.  The accumulator holds the characters of the current
field in reverse. -/
def tokeniser_go (delim : Char) : List Char → List Char → List String
  | [], acc => if acc.isEmpty then [] else [String.mk acc.reverse]
  | c :: rest, acc =>
    if c = delim then
      if acc.isEmpty then tokeniser_go delim rest []
      else String.mk acc.reverse :: tokeniser_go delim rest []
    else tokeniser_go delim rest (c :: acc)

/-- The token sequence produced by iterating str_tokeniser over a string. -/
def str_tokeniser_tokens (delim : Char) (s : String) : List String :=
  tokeniser_go delim s.data []

/-- load_lua_scripts(lua, paths) (host.cpp lines 64-73): returns at once on a
null or empty path string, otherwise tokenises on semicolons and loads scripts
from each token in order.  The result is the ordered list of searched paths. -/
def load_lua_scripts_from (paths : String) : List String :=
  if paths = "" then [] else str_tokeniser_tokens ';' paths

/-- load_lua_scripts(lua) (host.cpp lines 76-84): the paths from the
clink.path setting are processed first, then the paths from the clink_path
environment variable. -/
def load_lua_scripts_order (setting_clink_path env_clink_path : String) : List String :=
  load_lua_scripts_from setting_clink_path ++ load_lua_scripts_from env_clink_path

/-- Spec-side description of splitting for C8: the raw semicolon-separated
fields of a character list, empty fields retained. -/
def splitOnChar (delim : Char) : List Char → List (List Char)
  | [] => [[]]
  | c :: rest =>
    if c = delim then [] :: splitOnChar delim rest
    else List.modifyHead (fun t => c :: t) (splitOnChar delim rest)

/-- Spec-side description for C8: the non-empty delimited fields of a string,
in order. -/
def nonEmptyFields (delim : Char) (s : String) : List String :=
  ((splitOnChar delim s.data).filter (fun t => !t.isEmpty)).map (fun t => String.mk t)

/-- The leading-whitespace skip loop of host::edit_line lines 185-187:
advance past spaces and horizontal tabs. -/
def skip_ws : List Char → List Char
  | [] => []
  | c :: rest => if c = ' ' ∨ c = '\t' then skip_ws rest else c :: rest

/-- ASCII lowering, as performed by the case-insensitive C runtime compare. -/
def ascii_lower (c : Char) : Char :=
  if 'A' ≤ c ∧ c ≤ 'Z' then Char.ofNat (c.toNat + 32) else c

/-- The C runtime comparison used at host.cpp line 189: whether the first n
characters of the two strings are equal ignoring ASCII case, the comparison
stopping early when either string ends. -/
def strnicmp_eq : List Char → List Char → Nat → Bool
  | _, _, 0 => true
  | [], [], _ + 1 => true
  | [], _ :: _, _ + 1 => false
  | _ :: _, [], _ + 1 => false
  | x :: xs, y :: ys, n + 1 =>
    if ascii_lower x = ascii_lower y then strnicmp_eq xs ys n else false

/-- The reserved-command check of host::edit_line lines 183-190: skip leading
spaces and tabs, then compare the first 7 characters with "history" ignoring
case. -/
def matchesHistoryCmd (s : String) : Bool :=
  strnicmp_eq (skip_ws s.data) ("history".data) 7

/-- Observable events of a session, in program order: an editor->edit call
recording the buffer content passed in, a history.expand call recording its
input, the puts display of an expansion needing review, the history.load,
history.add and history.save calls, and the teardown calls
line_editor_destroy and classic_match_ui_destroy. -/
inductive HEvent where
  | editCall (buffer : String)
  | expandCall (input : String)
  | putsLine (s : String)
  | load
  | add (line : String)
  | save
  | destroyEditor
  | destroyUi
  deriving Repr, DecidableEq

/-- Result of the while loop of host::edit_line (lines 170-198): the
accepted flag that is returned, the final content of the out buffer, the
in-memory history sequence at loop exit, and the events of the loop. -/
structure LoopResult where
  ret : Bool
  out : String
  mem : List String
  trace : List HEvent
  deriving Repr, DecidableEq

/-- The while loop of host::edit_line, lines 170-198.  Arguments: the
history.expand oracle (outcome tag and expanded text), the value of the
g_add_history_cmd setting, the content the history file would have were it
reloaded at commit time (session-start content plus any entries appended by
other sessions during editing), then the interaction script listing the
result of each editor->edit call, the buffer content at the next call, and
the in-memory history sequence.  Returns none when the interaction script is
exhausted while the loop still needs another edit call. -/
def edit_loop (expand : String → Nat × String) (add_history_cmd : Bool)
    (reload_file : List String) :
    List (Bool × String) → String → List String → Option LoopResult
  | [], _, _ => none
  | (accepted, result) :: rest, buf, mem =>
    if accepted then
      let e := expand result
      if e.1 = 2 then
        (edit_loop expand add_history_cmd reload_file rest e.2 mem).map (fun r =>
          { r with trace := HEvent.editCall buf :: HEvent.expandCall result ::
              HEvent.putsLine e.2 :: r.trace })
      else if !add_history_cmd && matchesHistoryCmd e.2 then
        some { ret := true, out := e.2, mem := mem,
               trace := [HEvent.editCall buf, HEvent.expandCall result] }
      else
        some { ret := true, out := e.2, mem := reload_file ++ [e.2],
               trace := [HEvent.editCall buf, HEvent.expandCall result, HEvent.load,
                 HEvent.add e.2] }
    else
      some { ret := false, out := result, mem := mem, trace := [HEvent.editCall buf] }

/-- Result of a whole host::edit_line session. -/
structure SessionResult where
  ret : Bool
  out : String
  cmpMode : str_compare_scope
  scriptPaths : List String
  modules : List String
  generators : List String
  trace : List HEvent
  fileAfter : List String
  cwdAfter : String
  deriving Repr, DecidableEq

/-- host::edit_line (host.cpp lines 100-205).  The cwd_restorer captures the
working directory at entry and restores it in its destructor on every exit
path.  Configuration is resolved once: the comparison scope via cmp_mode_of,
the script search paths via load_lua_scripts_order.  History is loaded from
the file at session start, the editor is created and the three modules and
two generators are registered in program order, then the edit loop runs.
After the loop, history.save rewrites the history file with the in-memory
sequence (when the write succeeds; on failure the file keeps the content it
had, the session-start content plus any external appends), the editor and the
match UI are destroyed, the working directory is restored, and the loop flag
is returned. -/
def edit_line (m_name cwd0 setting_clink_path env_clink_path : String)
    (ignore_case_val : Int) (add_history_cmd : Bool) (save_ok : Bool)
    (history_file_at_start ext_appends : List String)
    (expand : String → Nat × String)
    (edits : List (Bool × String)) (out0 : String) : Option SessionResult :=
  match edit_loop expand add_history_cmd (history_file_at_start ++ ext_appends)
      edits out0 history_file_at_start with
  | none => none
  | some r =>
    some { ret := r.ret
           out := r.out
           cmpMode := cmp_mode_of ignore_case_val
           scriptPaths := load_lua_scripts_order setting_clink_path env_clink_path
           modules := ["classic_match_ui", "scroller", "host_module " ++ m_name]
           generators := ["lua_match_generator", "file_match_generator"]
           trace := HEvent.load ::
             (r.trace ++ [HEvent.save, HEvent.destroyEditor, HEvent.destroyUi])
           fileAfter := if save_ok then r.mem else history_file_at_start ++ ext_appends
           cwdAfter := cwd0 }

/-- Number of history.add events in a trace. -/
def numAdds : List HEvent → Nat
  | [] => 0
  | HEvent.add _ :: rest => numAdds rest + 1
  | _ :: rest => numAdds rest

/-- Number of history.load events in a trace. -/
def numLoads : List HEvent → Nat
  | [] => 0
  | HEvent.load :: rest => numLoads rest + 1
  | _ :: rest => numLoads rest

/-- Number of history.save events in a trace. -/
def numSaves : List HEvent → Nat
  | [] => 0
  | HEvent.save :: rest => numSaves rest + 1
  | _ :: rest => numSaves rest

/-- Every history.add event in the trace is immediately preceded by a
history.load event. -/
def addsFollowLoads : List HEvent → Bool
  | [] => true
  | HEvent.load :: HEvent.add _ :: rest => addsFollowLoads rest
  | HEvent.add _ :: _ => false
  | _ :: rest => addsFollowLoads rest

/-- The trace ends with exactly the sequence history.save,
line_editor_destroy, classic_match_ui_destroy, and contains no other
history.save event. -/
def endsWithSingleSave : List HEvent → Bool
  | [HEvent.save, HEvent.destroyEditor, HEvent.destroyUi] => true
  | HEvent.save :: _ => false
  | _ :: rest => endsWithSingleSave rest
  | [] => false

theorem numAdds_append (a b : List HEvent) :
    numAdds (a ++ b) = numAdds a + numAdds b := by
  induction a with
  | nil => simp [numAdds]
  | cons x t ih => cases x <;> simp [numAdds, ih] <;> omega

theorem numLoads_append (a b : List HEvent) :
    numLoads (a ++ b) = numLoads a + numLoads b := by
  induction a with
  | nil => simp [numLoads]
  | cons x t ih => cases x <;> simp [numLoads, ih] <;> omega

theorem numSaves_append (a b : List HEvent) :
    numSaves (a ++ b) = numSaves a + numSaves b := by
  induction a with
  | nil => simp [numSaves]
  | cons x t ih => cases x <;> simp [numSaves, ih] <;> omega

theorem endsWithSingleSave_append (t : List HEvent) (h : numSaves t = 0) :
    endsWithSingleSave
      (t ++ [HEvent.save, HEvent.destroyEditor, HEvent.destroyUi]) = true := by
  induction t with
  | nil => rfl
  | cons x w ih =>
    cases x <;> simp only [numSaves] at h <;>
      first
        | omega
        | simp [endsWithSingleSave, ih h]

/-- Unfolding of one aborted editor->edit call: the loop exits at once with a
false flag, leaving the buffer as the editor left it; the iteration performs
neither expansion nor any history operation. -/
theorem edit_loop_abort (expand : String → Nat × String) (acmd : Bool)
    (reload : List String) (u : String) (rest : List (Bool × String))
    (buf : String) (mem : List String) :
    edit_loop expand acmd reload ((false, u) :: rest) buf mem =
      some { ret := false, out := u, mem := mem, trace := [HEvent.editCall buf] } := rfl

/-- Unfolding of one accepted editor->edit call whose expansion returns the
needs-review tag 2: the expanded text is displayed and the loop re-enters the
edit call with it as the buffer; the iteration only prepends its three events. -/
theorem edit_loop_retry (expand : String → Nat × String) (acmd : Bool)
    (reload : List String) (u : String) (rest : List (Bool × String))
    (buf : String) (mem : List String) (h : (expand u).1 = 2) :
    edit_loop expand acmd reload ((true, u) :: rest) buf mem =
      (edit_loop expand acmd reload rest (expand u).2 mem).map (fun r =>
        { r with trace := HEvent.editCall buf :: HEvent.expandCall u ::
            HEvent.putsLine (expand u).2 :: r.trace }) := by
  simp [edit_loop, h]

/-- Unfolding of one accepted editor->edit call whose expansion does not need
review: the loop exits this iteration, either skipping the commit when the
policy is off and the expanded text matches the reserved command, or
reloading the history file and appending the expanded text. -/
theorem edit_loop_commit (expand : String → Nat × String) (acmd : Bool)
    (reload : List String) (u : String) (rest : List (Bool × String))
    (buf : String) (mem : List String) (h : (expand u).1 ≠ 2) :
    edit_loop expand acmd reload ((true, u) :: rest) buf mem =
      (if !acmd && matchesHistoryCmd (expand u).2 then
        some { ret := true, out := (expand u).2, mem := mem,
               trace := [HEvent.editCall buf, HEvent.expandCall u] }
      else
        some { ret := true, out := (expand u).2, mem := reload ++ [(expand u).2],
               trace := [HEvent.editCall buf, HEvent.expandCall u, HEvent.load,
                 HEvent.add (expand u).2] }) := by
  simp [edit_loop, h]

/-- Invariants of the edit loop, proved together by induction over the
interaction script: the loop performs no history.save; its trace begins with
an editor->edit call; its history.add events all immediately follow a
history.load; when the policy setting is off, a committed line causes exactly
one append unless its text matches the reserved command, in which case none;
an aborted loop never appends and its last event is the aborting edit call;
and on the aborted and policy-skip exits the loop performs no history.load
and leaves the in-memory history as it found it. -/
theorem edit_loop_invariants (expand : String → Nat × String) (acmd : Bool)
    (reload : List String) :
    ∀ (edits : List (Bool × String)) (buf : String) (mem : List String)
      (r : LoopResult),
      edit_loop expand acmd reload edits buf mem = some r →
      numSaves r.trace = 0 ∧
      (∃ b t, r.trace = HEvent.editCall b :: t) ∧
      (∀ k, addsFollowLoads k = true → addsFollowLoads (r.trace ++ k) = true) ∧
      (acmd = false → r.ret = true →
        numAdds r.trace = (if matchesHistoryCmd r.out then 0 else 1)) ∧
      (r.ret = false →
        numAdds r.trace = 0 ∧ ∃ t b, r.trace = t ++ [HEvent.editCall b]) ∧
      ((r.ret = false ∨ (acmd = false ∧ matchesHistoryCmd r.out = true)) →
        numLoads r.trace = 0 ∧ r.mem = mem) := by
  intro edits
  induction edits with
  | nil =>
    intro buf mem r h
    simp [edit_loop] at h
  | cons p rest ih =>
    intro buf mem r h
    obtain ⟨accepted, result⟩ := p
    cases accepted with
    | false =>
      rw [edit_loop_abort] at h
      simp only [Option.some.injEq] at h
      subst h
      refine ⟨rfl, ⟨buf, [], rfl⟩, ?_, ?_, ?_, ?_⟩
      · intro k hk
        simpa [addsFollowLoads] using hk
      · intro _ hret
        simp at hret
      · intro _
        exact ⟨rfl, [], buf, rfl⟩
      · intro _
        exact ⟨rfl, rfl⟩
    | true =>
      by_cases htag : (expand result).1 = 2
      · rw [edit_loop_retry expand acmd reload result rest buf mem htag] at h
        cases hrec : edit_loop expand acmd reload rest (expand result).2 mem with
        | none =>
          rw [hrec] at h
          simp at h
        | some r0 =>
          rw [hrec] at h
          simp only [Option.map_some', Option.some.injEq] at h
          subst h
          obtain ⟨hs, ⟨b0, t0, ht0⟩, hfl, hadds, habort, hskip⟩ :=
            ih (expand result).2 mem r0 hrec
          refine ⟨by simp [numSaves, hs], ⟨buf, _, rfl⟩, ?_, ?_, ?_, ?_⟩
          · intro k hk
            simpa [addsFollowLoads] using hfl k hk
          · intro hc hret
            simpa [numAdds] using hadds hc hret
          · intro hret
            obtain ⟨hna, t1, b1, ht1⟩ := habort hret
            refine ⟨by simpa [numAdds] using hna,
              HEvent.editCall buf :: HEvent.expandCall result ::
                HEvent.putsLine (expand result).2 :: t1, b1, ?_⟩
            simp [ht1]
          · intro hor
            obtain ⟨hnl, hmem⟩ := hskip hor
            exact ⟨by simpa [numLoads] using hnl, hmem⟩
      · rw [edit_loop_commit expand acmd reload result rest buf mem htag] at h
        by_cases hc : (!acmd && matchesHistoryCmd (expand result).2) = true
        · rw [if_pos hc] at h
          simp only [Option.some.injEq] at h
          subst h
          obtain ⟨hc1, hc2⟩ := Bool.and_eq_true_iff.mp hc
          refine ⟨rfl, ⟨buf, _, rfl⟩, ?_, ?_, ?_, ?_⟩
          · intro k hk
            simpa [addsFollowLoads] using hk
          · intro _ _
            simp [numAdds, hc2]
          · intro hret
            simp at hret
          · intro _
            exact ⟨rfl, rfl⟩
        · rw [if_neg hc] at h
          simp only [Option.some.injEq] at h
          subst h
          refine ⟨rfl, ⟨buf, _, rfl⟩, ?_, ?_, ?_, ?_⟩
          · intro k hk
            simpa [addsFollowLoads] using hk
          · intro hacmd _
            have : matchesHistoryCmd (expand result).2 = false := by
              cases hm : matchesHistoryCmd (expand result).2 with
              | false => rfl
              | true => exact absurd (by simp [hacmd, hm]) hc
            simp [numAdds, this]
          · intro hret
            simp at hret
          · intro hor
            rcases hor with hret | ⟨hacmd, hm⟩
            · simp at hret
            · exact absurd (by simp [hacmd, hm]) hc

theorem splitOnChar_ne_nil (delim : Char) (l : List Char) :
    splitOnChar delim l ≠ [] := by
  induction l with
  | nil => simp [splitOnChar]
  | cons c rest ih =>
    unfold splitOnChar
    split
    · simp
    · cases hsc : splitOnChar delim rest with
      | nil => exact absurd hsc ih
      | cons t ts => simp [List.modifyHead]

theorem isEmpty_reverse_eq (l : List Char) : l.reverse.isEmpty = l.isEmpty := by
  cases l with
  | nil => rfl
  | cons x xs => simp

/-- The scanning tokeniser agrees with the splitting description: over a
remaining input whose raw fields are t :: ts, with the characters of the
current field held reversed in the accumulator, it emits the completed first
field (unless empty) and then the non-empty remaining fields. -/
theorem tokeniser_go_split (delim : Char) :
    ∀ (l acc t : List Char) (ts : List (List Char)),
      splitOnChar delim l = t :: ts →
      tokeniser_go delim l acc =
        (if (acc.reverse ++ t).isEmpty then [] else [String.mk (acc.reverse ++ t)]) ++
          ((ts.filter (fun u => !u.isEmpty)).map (fun u => String.mk u)) := by
  intro l
  induction l with
  | nil =>
    intro acc t ts h
    simp only [splitOnChar] at h
    injection h with h1 h2
    subst h1
    subst h2
    simp [tokeniser_go, isEmpty_reverse_eq]
  | cons c restl ih =>
    intro acc t ts h
    cases hsc : splitOnChar delim restl with
    | nil => exact absurd hsc (splitOnChar_ne_nil delim restl)
    | cons t0 ts0 =>
      rw [splitOnChar, hsc] at h
      by_cases hd : c = delim
      · rw [if_pos hd] at h
        injection h with h1 h2
        subst h1
        subst h2
        rw [tokeniser_go, if_pos hd]
        by_cases hacc : acc.isEmpty = true
        · rw [if_pos hacc]
          rw [ih [] t0 ts0 hsc]
          have hrev : acc.reverse = [] := by
            rw [List.isEmpty_iff] at hacc
            simp [hacc]
          by_cases ht0 : t0 = [] <;> simp [hrev, ht0, List.filter_cons]
        · rw [if_neg hacc]
          rw [ih [] t0 ts0 hsc]
          have hrev : acc.reverse ≠ [] := by
            rw [List.isEmpty_iff] at hacc
            simpa using hacc
          by_cases ht0 : t0 = [] <;> simp [hrev, ht0, List.filter_cons]
      · rw [if_neg hd] at h
        rw [List.modifyHead] at h
        injection h with h1 h2
        subst h1
        subst h2
        rw [tokeniser_go, if_neg hd]
        rw [ih (c :: acc) t0 ts0 hsc]
        simp [List.reverse_cons, List.append_assoc]

/-- The str_tokeniser scan of a whole string yields exactly its non-empty
delimited fields, in order. -/
theorem str_tokeniser_eq_nonEmptyFields (delim : Char) (s : String) :
    str_tokeniser_tokens delim s = nonEmptyFields delim s := by
  unfold str_tokeniser_tokens nonEmptyFields
  cases hsc : splitOnChar delim s.data with
  | nil => exact absurd hsc (splitOnChar_ne_nil delim s.data)
  | cons t ts =>
    rw [tokeniser_go_split delim s.data [] t ts hsc]
    simp only [List.reverse_nil, List.nil_append, List.filter_cons]
    by_cases ht : t = [] <;> simp [ht]

/-- A completed session determines a completed loop: unpacking of the
edit_line result into the underlying loop result and the fields the
function fills in around it. -/
theorem edit_line_cases (m_name cwd0 sp ep : String) (ic : Int) (acmd sok : Bool)
    (file ext : List String) (expand : String → Nat × String)
    (edits : List (Bool × String)) (out0 : String) (r : SessionResult)
    (h : edit_line m_name cwd0 sp ep ic acmd sok file ext expand edits out0 = some r) :
    ∃ r0, edit_loop expand acmd (file ++ ext) edits out0 file = some r0 ∧
      r = { ret := r0.ret
            out := r0.out
            cmpMode := cmp_mode_of ic
            scriptPaths := load_lua_scripts_order sp ep
            modules := ["classic_match_ui", "scroller", "host_module " ++ m_name]
            generators := ["lua_match_generator", "file_match_generator"]
            trace := HEvent.load ::
              (r0.trace ++ [HEvent.save, HEvent.destroyEditor, HEvent.destroyUi])
            fileAfter := if sok then r0.mem else file ++ ext
            cwdAfter := cwd0 } := by
  unfold edit_line at h
  cases hrec : edit_loop expand acmd (file ++ ext) edits out0 file with
  | none =>
    rw [hrec] at h
    simp at h
  | some r0 =>
    rw [hrec] at h
    simp only [Option.some.injEq] at h
    exact ⟨r0, rfl, h.symm⟩

/-- C4: the session configuration resolver maps the three-valued
comparison-mode setting to the comparison scope: the option named on (stored
value 1) maps to caseless, the option named relaxed (stored value 2) maps to
relaxed, and every other stored value falls to the default branch of the
switch and maps to exact. -/
theorem c4_comparison_mode_mapping :
    cmp_mode_of (g_ignore_case_options.indexOf "on" : Int) = str_compare_scope.caseless ∧
    cmp_mode_of (g_ignore_case_options.indexOf "relaxed" : Int) = str_compare_scope.relaxed ∧
    ∀ v : Int, v ≠ 1 → v ≠ 2 → cmp_mode_of v = str_compare_scope.exact := by
  refine ⟨rfl, rfl, ?_⟩
  intro v h1 h2
  unfold cmp_mode_of
  rw [if_neg h1, if_neg h2]

/-- C4 witness: the stored value 0 (the option named off) is neither 1 nor 2
and maps to exact. -/
theorem c4_witness :
    (0 : Int) ≠ 1 ∧ (0 : Int) ≠ 2 ∧ cmp_mode_of 0 = str_compare_scope.exact :=
  ⟨by decide, by decide,
    c4_comparison_mode_mapping.2.2 0 (by decide) (by decide)⟩

/-- C8: the script search paths are the semicolon-delimited non-empty fields
of the clink.path settings value followed by those of the clink_path
environment variable, settings paths strictly first, and scripts are loaded
from each resulting path in that order. -/
theorem c8_script_paths_settings_then_env (setting env : String) :
    load_lua_scripts_order setting env =
      nonEmptyFields ';' setting ++ nonEmptyFields ';' env := by
  unfold load_lua_scripts_order load_lua_scripts_from
  rw [str_tokeniser_eq_nonEmptyFields, str_tokeniser_eq_nonEmptyFields]
  by_cases h1 : setting = "" <;> by_cases h2 : env = "" <;>
    simp [h1, h2] <;> rfl

/-- Shape test on a reversed trace: the last four events of the original
trace are an editor->edit call followed directly by the history save and the
two teardown calls. -/
def abortTailShapeRev : List HEvent → Bool
  | HEvent.destroyUi :: HEvent.destroyEditor :: HEvent.save :: HEvent.editCall _ :: _ =>
    true
  | _ => false

/-- The last four events of the trace are an editor->edit call followed
directly by the history save and the two teardown calls: nothing, in
particular no expansion and no append, happens between the final edit call
and the session-end save. -/
def abortTailShape (t : List HEvent) : Bool :=
  abortTailShapeRev t.reverse

/-- C2: when history expansion of an accepted line returns the needs-review
outcome (tag value 2), the loop displays the expanded text via puts instead
of committing it and re-enters the editor->edit call with the expanded text
as the new buffer content; the iteration contributes only its edit, expand
and display events, and neither appends to history nor produces the session
result in that iteration. -/
theorem c2_needs_review_redisplays_and_retries (expand : String → Nat × String)
    (acmd : Bool) (reload : List String) (u : String)
    (rest : List (Bool × String)) (buf : String) (mem : List String)
    (h : (expand u).1 = 2) :
    edit_loop expand acmd reload ((true, u) :: rest) buf mem =
      (edit_loop expand acmd reload rest (expand u).2 mem).map (fun r =>
        { r with trace := HEvent.editCall buf :: HEvent.expandCall u ::
            HEvent.putsLine (expand u).2 :: r.trace }) :=
  edit_loop_retry expand acmd reload u rest buf mem h

/-- C2 witness: a concrete needs-review expansion is displayed and the next
edit call starts from the expanded text. -/
theorem c2_witness :
    ((fun _ : String => ((2 : Nat), "ls -la")) "!!").1 = 2 ∧
    edit_loop (fun _ : String => ((2 : Nat), "ls -la")) true []
        [(true, "!!"), (false, "z")] "" [] =
      (edit_loop (fun _ : String => ((2 : Nat), "ls -la")) true []
          [(false, "z")] "ls -la" []).map (fun r =>
        { r with trace := HEvent.editCall "" :: HEvent.expandCall "!!" ::
            HEvent.putsLine "ls -la" :: r.trace }) :=
  ⟨rfl, c2_needs_review_redisplays_and_retries (fun _ => ((2 : Nat), "ls -la"))
    true [] "!!" [(false, "z")] "" [] rfl⟩

/-- C9: with the record-history-commands policy off, the reserved-command
check of a committing iteration is applied to the post-expansion text: the
branch taken depends only on matchesHistoryCmd of the expanded text, never
on the text the user originally typed. -/
theorem c9_policy_checks_expanded_text (expand : String → Nat × String)
    (reload : List String) (u : String) (rest : List (Bool × String))
    (buf : String) (mem : List String) (h : (expand u).1 ≠ 2) :
    edit_loop expand false reload ((true, u) :: rest) buf mem =
      (if matchesHistoryCmd (expand u).2 then
        some { ret := true, out := (expand u).2, mem := mem,
               trace := [HEvent.editCall buf, HEvent.expandCall u] }
      else
        some { ret := true, out := (expand u).2, mem := reload ++ [(expand u).2],
               trace := [HEvent.editCall buf, HEvent.expandCall u, HEvent.load,
                 HEvent.add (expand u).2] }) := by
  rw [edit_loop_commit expand false reload u rest buf mem h]
  simp

/-- C9 witness: a typed line that does not itself begin with the reserved
name but expands to text that does is skipped from recording. -/
theorem c9_witness :
    ((fun _ : String => ((1 : Nat), " history -c")) "!h").1 ≠ 2 ∧
    matchesHistoryCmd "!h" = false ∧
    matchesHistoryCmd " history -c" = true ∧
    edit_loop (fun _ : String => ((1 : Nat), " history -c")) false []
        [(true, "!h")] "" [] =
      (if matchesHistoryCmd " history -c" then
        some { ret := true, out := " history -c", mem := ([] : List String),
               trace := [HEvent.editCall "", HEvent.expandCall "!h"] }
      else
        some { ret := true, out := " history -c", mem := [" history -c"],
               trace := [HEvent.editCall "", HEvent.expandCall "!h", HEvent.load,
                 HEvent.add " history -c"] }) :=
  ⟨by decide, by decide, by decide,
    c9_policy_checks_expanded_text (fun _ => ((1 : Nat), " history -c")) []
      "!h" [] "" [] (by decide)⟩

/-- C1 counterexample: with the policy off, a committed line historyx is not
recorded: the session completes with no history.add event and an unchanged
history file, because the check compares only the first seven characters.
This refutes the part of the claim asserting historyx is a non-matching
prefix that gets recorded. -/
theorem c1_counterexample_historyx_not_recorded :
    edit_line "clink" "d" "" "" 2 false true [] [] (fun s => ((0 : Nat), s))
        [(true, "historyx")] "" =
      some { ret := true, out := "historyx",
             cmpMode := str_compare_scope.relaxed, scriptPaths := [],
             modules := ["classic_match_ui", "scroller", "host_module clink"],
             generators := ["lua_match_generator", "file_match_generator"],
             trace := [HEvent.load, HEvent.editCall "",
               HEvent.expandCall "historyx", HEvent.save, HEvent.destroyEditor,
               HEvent.destroyUi],
             fileAfter := [], cwdAfter := "d" } := by
  rfl

/-- C1 amended: with record-history-commands off, a committed line is skipped
from recording exactly when its text after trimming leading spaces and tabs
matches the reserved name history on its first seven characters ignoring
case; lines matching this test, among them the line with trimmed text
historyx, produce no append, and all other committed lines are appended
exactly once. -/
theorem c1_amended_policy_skip (m_name cwd0 sp ep : String) (ic : Int)
    (sok : Bool) (file ext : List String) (expand : String → Nat × String)
    (edits : List (Bool × String)) (out0 : String) {r : SessionResult}
    (h : edit_line m_name cwd0 sp ep ic false sok file ext expand edits out0 = some r)
    (hret : r.ret = true) :
    numAdds r.trace = (if matchesHistoryCmd r.out then 0 else 1) := by
  obtain ⟨r0, hrec, hr⟩ := edit_line_cases m_name cwd0 sp ep ic false sok file ext
    expand edits out0 r h
  subst hr
  obtain ⟨-, -, -, hadds, -, -⟩ :=
    edit_loop_invariants expand false (file ++ ext) edits out0 file r0 hrec
  simpa [numAdds, numAdds_append] using hadds rfl hret

/-- C1 witness: the line with leading whitespace and upper case HISTORY is
skipped: its session trace holds no append. -/
theorem c1_amended_witness :
    numAdds [HEvent.load, HEvent.editCall "", HEvent.expandCall "  HISTORY  -c",
      HEvent.save, HEvent.destroyEditor, HEvent.destroyUi] =
      (if matchesHistoryCmd "  HISTORY  -c" then 0 else 1) :=
  c1_amended_policy_skip "clink" "d" "" "" 2 true [] []
    (fun s => ((0 : Nat), s)) [(true, "  HISTORY  -c")] "" rfl rfl

/-- The session result of a one-iteration committed line x against empty
history and default collaborators, a concrete evaluation point. -/
def sampleCommitSession : SessionResult :=
  { ret := true, out := "x", cmpMode := str_compare_scope.relaxed,
    scriptPaths := [],
    modules := ["classic_match_ui", "scroller", "host_module c"],
    generators := ["lua_match_generator", "file_match_generator"],
    trace := [HEvent.load, HEvent.editCall "", HEvent.expandCall "x", HEvent.load,
      HEvent.add "x", HEvent.save, HEvent.destroyEditor, HEvent.destroyUi],
    fileAfter := ["x"], cwdAfter := "d" }

/-- The session result of an immediately aborted edit against a history file
holding one entry, with another session having appended a second entry during
editing, a concrete evaluation point. -/
def sampleAbortSession : SessionResult :=
  { ret := false, out := "q", cmpMode := str_compare_scope.relaxed,
    scriptPaths := [],
    modules := ["classic_match_ui", "scroller", "host_module c"],
    generators := ["lua_match_generator", "file_match_generator"],
    trace := [HEvent.load, HEvent.editCall "", HEvent.save, HEvent.destroyEditor,
      HEvent.destroyUi],
    fileAfter := ["a"], cwdAfter := "d" }

/-- C3: in every completed session, each commit-time append to the history
store is immediately preceded by a reload from the backing file with no
intervening operation, and the history save runs exactly once, as the last
history operation, directly before pipeline teardown, regardless of how many
expansion-retry iterations occurred. -/
theorem c3_reload_precedes_add_save_once (m_name cwd0 sp ep : String) (ic : Int)
    (acmd sok : Bool) (file ext : List String) (expand : String → Nat × String)
    (edits : List (Bool × String)) (out0 : String) {r : SessionResult}
    (h : edit_line m_name cwd0 sp ep ic acmd sok file ext expand edits out0 = some r) :
    addsFollowLoads r.trace = true ∧ numSaves r.trace = 1 ∧
    endsWithSingleSave r.trace = true := by
  obtain ⟨r0, hrec, hr⟩ := edit_line_cases m_name cwd0 sp ep ic acmd sok file ext
    expand edits out0 r h
  subst hr
  obtain ⟨hs, ⟨b0, t0, ht0⟩, hfl, -, -, -⟩ :=
    edit_loop_invariants expand acmd (file ++ ext) edits out0 file r0 hrec
  refine ⟨?_, ?_, ?_⟩
  · have hk := hfl [HEvent.save, HEvent.destroyEditor, HEvent.destroyUi] rfl
    show addsFollowLoads (HEvent.load ::
      (r0.trace ++ [HEvent.save, HEvent.destroyEditor, HEvent.destroyUi])) = true
    rw [ht0] at hk ⊢
    simp only [List.cons_append] at hk ⊢
    simpa [addsFollowLoads] using hk
  · show numSaves (HEvent.load ::
      (r0.trace ++ [HEvent.save, HEvent.destroyEditor, HEvent.destroyUi])) = 1
    simp [numSaves, numSaves_append, hs]
  · show endsWithSingleSave (HEvent.load ::
      (r0.trace ++ [HEvent.save, HEvent.destroyEditor, HEvent.destroyUi])) = true
    have h0 : numSaves (HEvent.load :: r0.trace) = 0 := by simp [numSaves, hs]
    have h2 := endsWithSingleSave_append (HEvent.load :: r0.trace) h0
    simpa using h2

/-- C3 witness: a one-iteration committed session shows the load directly
before the add and the single save at the end. -/
theorem c3_witness :
    addsFollowLoads sampleCommitSession.trace = true ∧
    numSaves sampleCommitSession.trace = 1 ∧
    endsWithSingleSave sampleCommitSession.trace = true :=
  c3_reload_precedes_add_save_once "c" "d" "" "" 2 true true [] []
    (fun s => ((0 : Nat), s)) [(true, "x")] "" rfl

/-- C5: the working directory after edit_line returns equals the working
directory before the call began, for every outcome: accepted line, aborted
edit, and failed save. -/
theorem c5_working_directory_restored (m_name cwd0 sp ep : String) (ic : Int)
    (acmd sok : Bool) (file ext : List String) (expand : String → Nat × String)
    (edits : List (Bool × String)) (out0 : String) {r : SessionResult}
    (h : edit_line m_name cwd0 sp ep ic acmd sok file ext expand edits out0 = some r) :
    r.cwdAfter = cwd0 := by
  obtain ⟨r0, hrec, hr⟩ := edit_line_cases m_name cwd0 sp ep ic acmd sok file ext
    expand edits out0 r h
  subst hr
  rfl

/-- C5 witness: an aborted session with a failing save still restores the
captured working directory. -/
theorem c5_witness :
    SessionResult.cwdAfter
      { ret := false, out := "q", cmpMode := str_compare_scope.relaxed,
        scriptPaths := [],
        modules := ["classic_match_ui", "scroller", "host_module c"],
        generators := ["lua_match_generator", "file_match_generator"],
        trace := [HEvent.load, HEvent.editCall "", HEvent.save,
          HEvent.destroyEditor, HEvent.destroyUi],
        fileAfter := ["a", "other"], cwdAfter := "d" } = "d" :=
  c5_working_directory_restored "c" "d" "" "" 2 true false ["a"] ["other"]
    (fun s => ((0 : Nat), s)) [(false, "q")] "" rfl

/-- C6: when the editing call reports the line was aborted, no history
expansion is attempted and no line is appended; the session still saves
history and tears down the editor pipeline directly after the aborting edit
call, restores the working directory, and reports no line produced. -/
theorem c6_abort_skips_expansion_and_commit (m_name cwd0 sp ep : String)
    (ic : Int) (acmd sok : Bool) (file ext : List String)
    (expand : String → Nat × String) (edits : List (Bool × String))
    (out0 : String) {r : SessionResult}
    (h : edit_line m_name cwd0 sp ep ic acmd sok file ext expand edits out0 = some r)
    (hret : r.ret = false) :
    numAdds r.trace = 0 ∧ abortTailShape r.trace = true ∧ r.cwdAfter = cwd0 := by
  obtain ⟨r0, hrec, hr⟩ := edit_line_cases m_name cwd0 sp ep ic acmd sok file ext
    expand edits out0 r h
  subst hr
  obtain ⟨-, -, -, -, habort, -⟩ :=
    edit_loop_invariants expand acmd (file ++ ext) edits out0 file r0 hrec
  obtain ⟨hna, t1, b1, ht1⟩ := habort hret
  refine ⟨?_, ?_, rfl⟩
  · show numAdds (HEvent.load ::
      (r0.trace ++ [HEvent.save, HEvent.destroyEditor, HEvent.destroyUi])) = 0
    simp [numAdds, numAdds_append, hna]
  · show abortTailShape (HEvent.load ::
      (r0.trace ++ [HEvent.save, HEvent.destroyEditor, HEvent.destroyUi])) = true
    rw [ht1]
    simp [abortTailShape, abortTailShapeRev, List.reverse_append]

/-- C6 witness: an immediately aborted session appends nothing and its final
four events are the edit call, the save and the two teardown calls. -/
theorem c6_witness :
    numAdds sampleAbortSession.trace = 0 ∧
    abortTailShape sampleAbortSession.trace = true ∧
    SessionResult.cwdAfter sampleAbortSession = "d" :=
  c6_abort_skips_expansion_and_commit "c" "d" "" "" 2 true true ["a"] ["other"]
    (fun s => ((0 : Nat), s)) [(false, "q")] "" rfl rfl

/-- C7: the pipeline builder registers exactly three modules in the fixed
order completion UI, scroller, host policy, and exactly two generators in
the fixed order Lua generator then filesystem generator. -/
theorem c7_pipeline_registration_order (m_name cwd0 sp ep : String) (ic : Int)
    (acmd sok : Bool) (file ext : List String) (expand : String → Nat × String)
    (edits : List (Bool × String)) (out0 : String) {r : SessionResult}
    (h : edit_line m_name cwd0 sp ep ic acmd sok file ext expand edits out0 = some r) :
    r.modules = ["classic_match_ui", "scroller", "host_module " ++ m_name] ∧
    r.generators = ["lua_match_generator", "file_match_generator"] := by
  obtain ⟨r0, hrec, hr⟩ := edit_line_cases m_name cwd0 sp ep ic acmd sok file ext
    expand edits out0 r h
  subst hr
  exact ⟨rfl, rfl⟩

/-- C7 witness: the registration order on a concrete session. -/
theorem c7_witness :
    sampleCommitSession.modules =
      ["classic_match_ui", "scroller", "host_module " ++ "c"] ∧
    sampleCommitSession.generators =
      ["lua_match_generator", "file_match_generator"] :=
  c7_pipeline_registration_order "c" "d" "" "" 2 true true [] []
    (fun s => ((0 : Nat), s)) [(true, "x")] "" rfl

/-- C10: on the abort path and on the policy-skip path the history store is
not reloaded before the unconditional session-end save: the only load is the
session-start one, and the save rewrites the backing file with the in-memory
sequence as loaded at session start, overwriting any entries appended to the
file by other sessions during editing. -/
theorem c10_no_reload_before_final_save (m_name cwd0 sp ep : String) (ic : Int)
    (acmd : Bool) (file ext : List String) (expand : String → Nat × String)
    (edits : List (Bool × String)) (out0 : String) {r : SessionResult}
    (h : edit_line m_name cwd0 sp ep ic acmd true file ext expand edits out0 = some r)
    (hpath : r.ret = false ∨ (acmd = false ∧ matchesHistoryCmd r.out = true)) :
    numLoads r.trace = 1 ∧ r.fileAfter = file := by
  obtain ⟨r0, hrec, hr⟩ := edit_line_cases m_name cwd0 sp ep ic acmd true file ext
    expand edits out0 r h
  subst hr
  obtain ⟨-, -, -, -, -, hskip⟩ :=
    edit_loop_invariants expand acmd (file ++ ext) edits out0 file r0 hrec
  have hp0 : r0.ret = false ∨ (acmd = false ∧ matchesHistoryCmd r0.out = true) :=
    hpath
  obtain ⟨hnl, hmem⟩ := hskip hp0
  constructor
  · show numLoads (HEvent.load ::
      (r0.trace ++ [HEvent.save, HEvent.destroyEditor, HEvent.destroyUi])) = 1
    simp [numLoads, numLoads_append, hnl]
  · show (if true then r0.mem else file ++ ext) = file
    simp [hmem]

/-- C10 witness: an aborted session against a start file of one entry, with a
second entry appended by another session during editing, saves back only the
session-start content: the external entry is overwritten. -/
theorem c10_witness :
    numLoads sampleAbortSession.trace = 1 ∧
    SessionResult.fileAfter sampleAbortSession = ["a"] :=
  c10_no_reload_before_final_save "c" "d" "" "" 2 true ["a"] ["other"]
    (fun s => ((0 : Nat), s)) [(false, "q")] "" rfl (Or.inl rfl)
